import Mathlib

/-!
Shallow embedding of the SyncStream repository (src/leader.rs, src/member.rs,
src/utils.rs) and proofs about its wire protocol, clock synchronizer,
discovery state machine and playback state machine.

Strings travelling over the wire are modelled as `List Char`; Rust's
`str::split(c)` (which splits at every occurrence of `c`), `str::trim`,
`str::parse::<u64>` and `format!` are modelled by the functions below.
Machine integers (`u64`, `usize`) are modelled as `Nat`, with an explicit
`% 2 ^ 64` where the source can overflow.
-/

namespace SyncStream

/-- Model of Rust `str::split(c)`: splits at every occurrence of `c`,
keeping empty segments; the result is never empty (splitting the empty
string yields one empty segment). -/
def splitChar (c : Char) : List Char → List (List Char)
  | [] => [[]]
  | x :: xs =>
    if x = c then [] :: splitChar c xs
    else (x :: (splitChar c xs).headD []) :: (splitChar c xs).tail

/-- Model of `Vec::join(",")` as used on track names: interpose the
separator between consecutive elements. -/
def joinChar (c : Char) : List (List Char) → List Char
  | [] => []
  | [s] => s
  | s :: rest => s ++ c :: joinChar c rest

/-- Model of Rust `str::trim` on the ASCII payloads the protocol uses:
drop whitespace from both ends. (Rust trims full Unicode whitespace; the
payloads here only ever carry ASCII whitespace, for which
`Char.isWhitespace` agrees.) -/
def trimChars (s : List Char) : List Char :=
  ((s.dropWhile Char.isWhitespace).reverse.dropWhile Char.isWhitespace).reverse

/-- ASCII digit test, as used by Rust's `u64::from_str`. -/
def isDigitChar (c : Char) : Bool := 48 ≤ c.toNat && c.toNat ≤ 57

/-- Numeric value of an ASCII digit character. -/
def digitVal (c : Char) : Option Nat :=
  if isDigitChar c then some (c.toNat - 48) else none

/-- Accumulating decimal parser over the digit characters. -/
def parseDigitsAux : List Char → Nat → Option Nat
  | [], acc => some acc
  | c :: cs, acc =>
    match digitVal c with
    | some d => parseDigitsAux cs (acc * 10 + d)
    | none => none

/-- Rust `u64::from_str` accepts an optional leading plus sign. -/
def stripPlus (s : List Char) : List Char :=
  match s with
  | c :: rest => if c = '+' then rest else s
  | [] => s

/-- Model of Rust `str::parse::<u64>()`: optional leading plus sign, one
or more ASCII digits, and the value must fit in a `u64` (Rust reports
overflow as a parse error). -/
def parseU64 (s : List Char) : Option Nat :=
  let digits := stripPlus s
  if digits = [] then none
  else
    match parseDigitsAux digits 0 with
    | some v => if v < 2 ^ 64 then some v else none
    | none => none

/-- Decimal rendering of a `Nat`, most significant digit first; model of
Rust's `Display` for unsigned integers as used by `format!`. -/
def natDigits (n : Nat) : List Char :=
  if _h : n < 10 then [Char.ofNat (48 + n)]
  else natDigits (n / 10) ++ [Char.ofNat (48 + n % 10)]
decreasing_by exact Nat.div_lt_self (by omega) (by omega)

/- ## Wire protocol codec (src/utils.rs lines 177-200, src/leader.rs line 353,
     src/leader.rs lines 71-80, src/member.rs lines 50-59) -/

/-- Model of `utils::extract_mode`: split the input at every colon, take the
part at index 0 (`nth(0)`), trim it and parse it as a `u64`. -/
def extract_mode (input : List Char) : Option Nat :=
  match (splitChar ':' input).get? 0 with
  | some number_str => parseU64 (trimChars number_str)
  | none => none

/-- Model of `utils::extract_timestamp`: split the input at every colon, take
the part at index 1 (`nth(1)`), trim it and parse it as a `u64`. -/
def extract_timestamp (input : List Char) : Option Nat :=
  match (splitChar ':' input).get? 1 with
  | some number_str => parseU64 (trimChars number_str)
  | none => none

/-- Model of the payload built by `leader::handle_command`:
`format!("{} : {}", command, global_start_time)`. -/
def command_message (command : List Char) (global_start_time : Nat) : List Char :=
  command ++ ' ' :: ':' :: ' ' :: natDigits global_start_time

/-- The characters of the literal `"tracks"`. -/
def tracksTag : List Char := ['t', 'r', 'a', 'c', 'k', 's']

/-- Model of the track-list payload built in `leader::run_leader`:
`format!("tracks:{}", track_names.join(","))`. -/
def tracks_message (names : List (List Char)) : List Char :=
  tracksTag ++ ':' :: joinChar ',' names

/-- Model of the member-side decoding in `member::run_member`:
`message.split(':')` collected, indexed at `[1]` (an out-of-bounds index
panics, modelled as `none`), then split on `','`. -/
def parse_track_message (message : List Char) : Option (List (List Char)) :=
  match (splitChar ':' message).get? 1 with
  | some field => some (splitChar ',' field)
  | none => none

/- ## Clock synchronizer (src/utils.rs lines 54-101) -/

/-- Model of the `match get_time_ms_ntp() { Ok(time) => time, Err(_) => system }`
pattern shared by `broadcast_start_time` and `get_offset`: the NTP result when
it succeeds, otherwise the local wall clock (the fallback is logged). -/
def currentTimeMs (ntpResult : Option Nat) (systemTimeMs : Nat) : Nat :=
  match ntpResult with
  | some time => time
  | none => systemTimeMs

/-- Model of `utils::broadcast_start_time`: the current time plus 1000 ms
(`u64` addition, hence the `% 2 ^ 64`), always wrapped in `Some`. -/
def broadcast_start_time (ntpResult : Option Nat) (systemTimeMs : Nat) : Option Nat :=
  let current_time_ms := currentTimeMs ntpResult systemTimeMs
  let start_time_ms := (current_time_ms + 1000) % 2 ^ 64
  some start_time_ms

/-- Model of `utils::get_offset`: the number of milliseconds from the current
time to `target_time_ms`, zero when the target has already passed, always
wrapped in `Some`. (`Duration` comparison and subtraction on whole
milliseconds are exact.) -/
def get_offset (ntpResult : Option Nat) (systemTimeMs : Nat)
    (target_time_ms : Nat) : Option Nat :=
  let current_time_ms := currentTimeMs ntpResult systemTimeMs
  if current_time_ms < target_time_ms then some (target_time_ms - current_time_ms)
  else some 0

/- ## Member discovery (src/member.rs lines 21-106) -/

/-- The member-side discovery state: `last_received_id` (initially 0) and the
bound leader address (initially `None`); addresses are abstracted as `Nat`. -/
structure DiscoveryState where
  lastReceivedId : Nat
  leaderAddr : Option Nat
deriving DecidableEq

/-- Initial discovery state in `member::run_member`: `last_received_id = 0`,
no leader bound. -/
def initDiscovery : DiscoveryState := ⟨0, none⟩

/-- The core of `member::handle_ping_message` once the sequence id has been
parsed: if `id > last_received_id`, record it, and if no leader is bound yet,
send `ACK` (the returned `Bool`) and bind the sender as leader. -/
def ping_step (id : Nat) (src : Nat) (s : DiscoveryState) : DiscoveryState × Bool :=
  if s.lastReceivedId < id then
    match s.leaderAddr with
    | none => (⟨id, some src⟩, true)
    | some a => (⟨id, some a⟩, false)
  else (s, false)

/-- Model of `member::handle_ping_message` on the raw datagram payload:
`message.split(',')` collected, indexed at `[1]` — an index that is out of
bounds (a payload with no comma) panics in Rust, modelled as `none` — then
parsed as `u64`; a parse failure leaves the state unchanged. -/
def handle_ping_message (message : List Char) (src : Nat) (s : DiscoveryState) :
    Option (DiscoveryState × Bool) :=
  match (splitChar ',' message).get? 1 with
  | none => none
  | some part =>
    match parseU64 part with
    | some id => some (ping_step id src s)
    | none => some (s, false)

/-- Fold of `ping_step` over a sequence of parsed pings `(id, src)`, returning
the final state and the list of ACK decisions, one per ping. -/
def run_pings (s : DiscoveryState) : List (Nat × Nat) → DiscoveryState × List Bool
  | [] => (s, [])
  | p :: rest =>
    ((run_pings (ping_step p.1 p.2 s).1 rest).1,
     (ping_step p.1 p.2 s).2 :: (run_pings (ping_step p.1 p.2 s).1 rest).2)

/-- Discovery state just before the `i`-th ping of `l` is handled, starting
from the initial state of `member::run_member`. -/
def stateBefore (l : List (Nat × Nat)) (i : Nat) : DiscoveryState :=
  (run_pings initDiscovery (l.take i)).1

/-- Whether the member ACKs the `i`-th ping of `l`. -/
def ackAt (l : List (Nat × Nat)) (i : Nat) : Bool :=
  (run_pings initDiscovery l).2.getD i false

/-- The highest sequence id among the first `i` pings of `l` (0 when there are
none, matching the initial `last_received_id`). -/
def maxIdBefore (l : List (Nat × Nat)) (i : Nat) : Nat :=
  ((l.take i).map Prod.fst).foldl max 0

/-- The `i`-th ping of `l` as an `(id, src)` pair (`(0, 0)` past the end). -/
def pingAt (l : List (Nat × Nat)) (i : Nat) : Nat × Nat := l.getD i (0, 0)

/-- Sequence id of the `i`-th ping of `l` (0 past the end). -/
def pingIdAt (l : List (Nat × Nat)) (i : Nat) : Nat := (pingAt l i).1

/- ## Playback state machine (src/leader.rs lines 343-380, src/member.rs
     lines 180-207, src/utils.rs lines 16-34 and 113-144) -/

/-- Result of one handler invocation: either the process prints the farewell
message and exits (`std::process::exit(0)`), or it continues with a new
state. -/
inductive StepOutcome (α : Type) where
  | exit : StepOutcome α
  | cont : α → StepOutcome α
deriving DecidableEq

/-- The playback state shared by the loops of one node: the current track
index, the pending-reset flag, and the sink's paused/playing flag. The sink's
audio queue and seek position live in the external audio sink and are not
modelled. -/
structure MState where
  trackIndex : Nat
  shouldReset : Bool
  paused : Bool
deriving DecidableEq

/-- Model of `utils::synchronized_action` (the sleep until the target time is
dropped; only the state effect at the target time is kept): role `"p"`
toggles pause, `"n"` skips within the sink, `"s"` prints a farewell and exits,
`"r"` seeks the sink to zero; any other role does nothing. -/
def synchronized_action (role : List Char) (st : MState) : StepOutcome MState :=
  if role = ['p'] then StepOutcome.cont { st with paused := !st.paused }
  else if role = ['n'] then StepOutcome.cont st
  else if role = ['s'] then StepOutcome.exit
  else if role = ['r'] then StepOutcome.cont st
  else StepOutcome.cont st

/-- Model of `member::handle_mode`: dispatch on the decoded mode. Mode 2
increments the track index under lock, exits with a farewell when the new
index reaches the number of tracks, and otherwise skips and sets the
pending-reset flag; modes 0/3/4 delegate to `synchronized_action`; any other
mode does nothing. -/
def handle_mode (mode : Nat) (timestamp : Nat) (st : MState) (numTracks : Nat) :
    StepOutcome MState :=
  if mode = 0 then synchronized_action ['p'] st
  else if mode = 2 then
    let idx := st.trackIndex + 1
    if numTracks ≤ idx then StepOutcome.exit
    else
      match synchronized_action ['n'] { st with trackIndex := idx } with
      | StepOutcome.exit => StepOutcome.exit
      | StepOutcome.cont st' => StepOutcome.cont { st' with shouldReset := true }
  else if mode = 3 then synchronized_action ['s'] st
  else if mode = 4 then synchronized_action ['r'] st
  else StepOutcome.cont st

/-- Model of `leader::handle_command`: build the `"<code> : <time>"` payload
sent to every member, then run the same dispatch as the member does, keyed on
the command string `"0"`/`"2"`/`"3"`/`"4"`. -/
def handle_command (command : List Char) (global_start_time : Nat) (st : MState)
    (numTracks : Nat) : List Char × StepOutcome MState :=
  (command_message command global_start_time,
   if command = ['0'] then synchronized_action ['p'] st
   else if command = ['2'] then
     let idx := st.trackIndex + 1
     if numTracks ≤ idx then StepOutcome.exit
     else
       match synchronized_action ['n'] { st with trackIndex := idx } with
       | StepOutcome.exit => StepOutcome.exit
       | StepOutcome.cont st' => StepOutcome.cont { st' with shouldReset := true }
   else if command = ['3'] then synchronized_action ['s'] st
   else if command = ['4'] then synchronized_action ['r'] st
   else StepOutcome.cont st)

/-- Model of one iteration of the end-of-track watchdog in
`utils::start_track_position_thread`: when the sink position has reached the
current track's duration, advance the index and set the pending-reset flag,
exiting with a farewell when the index reaches the number of tracks. -/
def track_position_step (pos duration : Nat) (trackIndex : Nat)
    (shouldReset : Bool) (numTracks : Nat) : StepOutcome (Nat × Bool) :=
  if duration ≤ pos then
    let idx := trackIndex + 1
    let reset := true
    if numTracks ≤ idx then StepOutcome.exit
    else StepOutcome.cont (idx, reset)
  else StepOutcome.cont (trackIndex, shouldReset)

/-- Model of one iteration of `member::handle_incoming_messages`: extract the
timestamp, then the mode, and dispatch to `handle_mode`; if either extraction
fails the failure is logged and the message dropped, leaving the state
unchanged. -/
def handle_incoming (message : List Char) (st : MState) (numTracks : Nat) :
    StepOutcome MState :=
  match extract_timestamp message with
  | some timestamp =>
    match extract_mode message with
    | some mode => handle_mode mode timestamp st numTracks
    | none => StepOutcome.cont st
  | none => StepOutcome.cont st


/- ### Basic lemmas about the string primitives -/

theorem splitChar_ne_nil (c : Char) (l : List Char) : splitChar c l ≠ [] := by
  cases l with
  | nil => simp [splitChar]
  | cons x xs =>
    by_cases h : x = c <;> simp [splitChar, h]

theorem splitChar_not_mem {c : Char} {l : List Char} (h : c ∉ l) :
    splitChar c l = [l] := by
  induction l with
  | nil => rfl
  | cons x xs ih =>
    have hx : ¬ x = c := fun he => h (he ▸ List.mem_cons_self x xs)
    have hxs : c ∉ xs := fun hm => h (List.mem_cons_of_mem x hm)
    simp [splitChar, hx, ih hxs]

theorem splitChar_append_cons {c : Char} {a : List Char} (b : List Char)
    (h : c ∉ a) : splitChar c (a ++ c :: b) = a :: splitChar c b := by
  induction a with
  | nil => simp [splitChar]
  | cons x a' ih =>
    have hx : ¬ x = c := fun he => h (he ▸ List.mem_cons_self x a')
    have ha' : c ∉ a' := fun hm => h (List.mem_cons_of_mem x hm)
    simp [splitChar, hx, ih ha']

theorem splitChar_headD (c : Char) (l : List Char) :
    (splitChar c l).headD [] = l.takeWhile (fun x => x != c) := by
  induction l with
  | nil => rfl
  | cons x xs ih =>
    by_cases h : x = c
    · simp [splitChar, h, List.takeWhile]
    · have hbne : (x != c) = true := by simp [h]
      simp only [List.headD_eq_head?] at ih
      simp [splitChar, h, List.takeWhile, hbne, ih]

theorem not_mem_joinChar {x c : Char} (hxc : x ≠ c) :
    ∀ {l : List (List Char)}, (∀ s ∈ l, x ∉ s) → x ∉ joinChar c l
  | [], _ => by simp [joinChar]
  | [s], h => by
    simpa [joinChar] using h s (by simp)
  | s :: r :: rest, h => by
    have hs : x ∉ s := h s (by simp)
    have htail : x ∉ joinChar c (r :: rest) :=
      not_mem_joinChar hxc (fun t ht => h t (by simp [ht]))
    simp [joinChar, hs, hxc, htail]

theorem splitChar_joinChar {c : Char} :
    ∀ {l : List (List Char)}, l ≠ [] → (∀ s ∈ l, c ∉ s) →
      splitChar c (joinChar c l) = l
  | [], h, _ => absurd rfl h
  | [s], _, h => by
    simp [joinChar, splitChar_not_mem (h s (by simp))]
  | s :: r :: rest, _, h => by
    have hs : c ∉ s := h s (by simp)
    have ih : splitChar c (joinChar c (r :: rest)) = r :: rest :=
      splitChar_joinChar (by simp) (fun t ht => h t (by simp [ht]))
    simp [joinChar, splitChar_append_cons _ hs, ih]

theorem dropWhile_all_append {p : Char → Bool} {ws : List Char}
    (h : ∀ x ∈ ws, p x = true) (t : List Char) :
    (ws ++ t).dropWhile p = t.dropWhile p := by
  induction ws with
  | nil => rfl
  | cons w ws ih =>
    have hw : p w = true := h w (by simp)
    simp [List.dropWhile, hw, ih (fun x hx => h x (by simp [hx]))]

theorem dropWhile_all_not {p : Char → Bool} {l : List Char}
    (h : ∀ x ∈ l, p x = false) : l.dropWhile p = l := by
  induction l with
  | nil => rfl
  | cons x xs ih =>
    have hx : p x = false := h x (by simp)
    simp [List.dropWhile, hx]

theorem trimChars_spec {ws1 s ws2 : List Char}
    (h1 : ∀ x ∈ ws1, x.isWhitespace = true)
    (h2 : ∀ x ∈ ws2, x.isWhitespace = true)
    (hs : ∀ x ∈ s, x.isWhitespace = false) :
    trimChars (ws1 ++ s ++ ws2) = s := by
  unfold trimChars
  rw [List.append_assoc, dropWhile_all_append h1]
  cases s with
  | nil =>
    have : (List.dropWhile Char.isWhitespace ws2) = [] := by
      have := dropWhile_all_append h2 ([] : List Char)
      simpa using this
    simp [this]
  | cons x s' =>
    have hx : x.isWhitespace = false := hs x (by simp)
    have h3 : List.dropWhile Char.isWhitespace (x :: (s' ++ ws2)) =
        x :: (s' ++ ws2) := by
      simp [List.dropWhile, hx]
    rw [List.cons_append, h3]
    have hrev : (x :: (s' ++ ws2)).reverse = ws2.reverse ++ (s'.reverse ++ [x]) := by
      simp
    rw [hrev, dropWhile_all_append (by intro y hy; exact h2 y (by simpa using hy))]
    have hclean : ∀ y ∈ s'.reverse ++ [x], Char.isWhitespace y = false := by
      intro y hy
      rcases List.mem_append.mp hy with hy' | hy'
      · exact hs y (by simp [List.mem_reverse.mp hy'])
      · simp at hy'
        subst hy'
        exact hx
    rw [dropWhile_all_not hclean]
    simp

/- ### Lemmas about decimal rendering and parsing -/

theorem natDigits_ne_nil (n : Nat) : natDigits n ≠ [] := by
  rw [natDigits]
  split <;> simp

theorem natDigits_all_digit (n : Nat) : ∀ c ∈ natDigits n, isDigitChar c = true := by
  induction n using natDigits.induct with
  | case1 n h =>
    intro c hc
    rw [natDigits, dif_pos h] at hc
    simp at hc
    subst hc
    interval_cases n <;> decide
  | case2 n h ih =>
    intro c hc
    rw [natDigits, dif_neg h] at hc
    rcases List.mem_append.mp hc with hc' | hc'
    · exact ih c hc'
    · simp at hc'
      subst hc'
      have hm : n % 10 < 10 := Nat.mod_lt _ (by omega)
      interval_cases hmod : n % 10 <;> decide

theorem isDigitChar_not_ws {c : Char} (h : isDigitChar c = true) :
    c.isWhitespace = false := by
  simp [isDigitChar] at h
  have h1 : c ≠ ' ' := by intro he; subst he; revert h; decide
  have h2 : c ≠ '\t' := by intro he; subst he; revert h; decide
  have h3 : c ≠ '\r' := by intro he; subst he; revert h; decide
  have h4 : c ≠ '\n' := by intro he; subst he; revert h; decide
  simp [Char.isWhitespace, h1, h2, h3, h4]

theorem isDigitChar_ne {c : Char} (h : isDigitChar c = true) :
    c ≠ ':' ∧ c ≠ '+' ∧ c ≠ ',' := by
  simp [isDigitChar] at h
  refine ⟨?_, ?_, ?_⟩ <;> (intro he; subst he; revert h; decide)

theorem digitVal_ofNat {d : Nat} (h : d < 10) :
    digitVal (Char.ofNat (48 + d)) = some d := by
  interval_cases d <;> decide

theorem parseDigitsAux_append (a b : List Char) (acc : Nat) :
    parseDigitsAux (a ++ b) acc =
      (parseDigitsAux a acc).bind (fun v => parseDigitsAux b v) := by
  induction a generalizing acc with
  | nil => simp [parseDigitsAux]
  | cons c cs ih =>
    cases hd : digitVal c with
    | some d => simp [parseDigitsAux, hd, ih]
    | none => simp [parseDigitsAux, hd]

theorem parseDigitsAux_natDigits (n : Nat) :
    ∀ acc, parseDigitsAux (natDigits n) acc =
      some (acc * 10 ^ (natDigits n).length + n) := by
  induction n using natDigits.induct with
  | case1 n h =>
    intro acc
    rw [natDigits, dif_pos h]
    simp [parseDigitsAux, digitVal_ofNat h]
  | case2 n h ih =>
    intro acc
    rw [natDigits, dif_neg h]
    rw [parseDigitsAux_append, ih acc]
    have hm : n % 10 < 10 := Nat.mod_lt _ (by omega)
    simp [parseDigitsAux, digitVal_ofNat hm, pow_succ]
    have hdm : n / 10 * 10 + n % 10 = n := by omega
    ring_nf
    omega

theorem stripPlus_natDigits (n : Nat) : stripPlus (natDigits n) = natDigits n := by
  cases hd : natDigits n with
  | nil => rfl
  | cons c cs =>
    have hc : isDigitChar c = true :=
      natDigits_all_digit n c (by rw [hd]; simp)
    have : c ≠ '+' := (isDigitChar_ne hc).2.1
    simp [stripPlus, this]

theorem parseU64_natDigits {n : Nat} (h : n < 2 ^ 64) :
    parseU64 (natDigits n) = some n := by
  unfold parseU64
  rw [stripPlus_natDigits, if_neg (natDigits_ne_nil n)]
  rw [parseDigitsAux_natDigits n 0]
  have h64 : n < 18446744073709551616 := by
    calc n < 2 ^ 64 := h
    _ = 18446744073709551616 := by norm_num
  simp [h64]

theorem natDigits_no_colon (n : Nat) : ':' ∉ natDigits n := by
  intro hm
  exact (isDigitChar_ne (natDigits_all_digit n _ hm)).1 rfl

theorem natDigits_no_comma (n : Nat) : ',' ∉ natDigits n := by
  intro hm
  exact (isDigitChar_ne (natDigits_all_digit n _ hm)).2.2 rfl

theorem natDigits_not_ws (n : Nat) : ∀ c ∈ natDigits n, c.isWhitespace = false :=
  fun c hc => isDigitChar_not_ws (natDigits_all_digit n c hc)

theorem trimChars_natDigits_space (n : Nat) :
    trimChars (natDigits n ++ [' ']) = natDigits n := by
  have := @trimChars_spec [] (natDigits n) [' ']
    (by simp) (by simp) (natDigits_not_ws n)
  simpa using this

theorem trimChars_space_natDigits (n : Nat) :
    trimChars (' ' :: natDigits n) = natDigits n := by
  have := @trimChars_spec [' '] (natDigits n) []
    (by simp) (by simp) (natDigits_not_ws n)
  simpa using this

/- ### Lemmas about the discovery state machine -/

theorem ping_step_ack_iff (id src : Nat) (s : DiscoveryState) :
    (ping_step id src s).2 = true ↔ s.lastReceivedId < id ∧ s.leaderAddr = none := by
  cases hl : s.leaderAddr <;> by_cases h : s.lastReceivedId < id <;>
    simp [ping_step, h, hl]

theorem ping_step_last (id src : Nat) (s : DiscoveryState) :
    (ping_step id src s).1.lastReceivedId = max s.lastReceivedId id := by
  cases hl : s.leaderAddr <;> by_cases h : s.lastReceivedId < id <;>
    simp [ping_step, h, hl] <;> omega

theorem ping_step_leader_some {s : DiscoveryState} {a : Nat}
    (h : s.leaderAddr = some a) (id src : Nat) :
    (ping_step id src s).1.leaderAddr = some a ∧ (ping_step id src s).2 = false := by
  by_cases hlt : s.lastReceivedId < id <;> simp [ping_step, hlt, h]

theorem ping_step_leader_none {s : DiscoveryState} (h : s.leaderAddr = none)
    (id src : Nat) :
    (ping_step id src s).1.leaderAddr =
      (if (ping_step id src s).2 = true then some src else none) := by
  by_cases hlt : s.lastReceivedId < id <;> simp [ping_step, hlt, h]

theorem run_pings_length (s : DiscoveryState) (l : List (Nat × Nat)) :
    (run_pings s l).2.length = l.length := by
  induction l generalizing s with
  | nil => rfl
  | cons p rest ih => simp [run_pings, ih]

theorem run_pings_append (s : DiscoveryState) (l m : List (Nat × Nat)) :
    run_pings s (l ++ m) =
      ((run_pings (run_pings s l).1 m).1,
       (run_pings s l).2 ++ (run_pings (run_pings s l).1 m).2) := by
  induction l generalizing s with
  | nil => simp [run_pings]
  | cons p rest ih => simp [run_pings, ih]

theorem run_pings_last (s : DiscoveryState) (l : List (Nat × Nat)) :
    (run_pings s l).1.lastReceivedId =
      (l.map Prod.fst).foldl max s.lastReceivedId := by
  induction l generalizing s with
  | nil => rfl
  | cons p rest ih =>
    simp only [run_pings, List.map_cons, List.foldl_cons]
    rw [ih, ping_step_last]

theorem run_pings_leader_some {s : DiscoveryState} {a : Nat}
    (h : s.leaderAddr = some a) :
    ∀ l, (run_pings s l).1.leaderAddr = some a ∧
      ∀ b ∈ (run_pings s l).2, b = false
  | [] => ⟨h, by simp [run_pings]⟩
  | p :: rest => by
    have hs := ping_step_leader_some h p.1 p.2
    have ih := run_pings_leader_some hs.1 rest
    refine ⟨ih.1, ?_⟩
    intro b hb
    simp only [run_pings, List.mem_cons] at hb
    rcases hb with hb | hb
    · rw [hb]
      exact hs.2
    · exact ih.2 b hb

theorem run_pings_leader_none_iff {s : DiscoveryState} (h : s.leaderAddr = none) :
    ∀ l, ((run_pings s l).1.leaderAddr = none ↔
      ∀ b ∈ (run_pings s l).2, b = false)
  | [] => by simp [run_pings, h]
  | p :: rest => by
    by_cases hack : (ping_step p.1 p.2 s).2 = true
    · have hl : (ping_step p.1 p.2 s).1.leaderAddr = some p.2 := by
        rw [ping_step_leader_none h, if_pos hack]
      have hsome := (run_pings_leader_some hl rest).1
      simp [run_pings, hsome, hack]
    · have hfalse : (ping_step p.1 p.2 s).2 = false := by
        simpa using hack
      have hl : (ping_step p.1 p.2 s).1.leaderAddr = none := by
        rw [ping_step_leader_none h, if_neg hack]
      have ih := run_pings_leader_none_iff hl rest
      simp only [run_pings, List.mem_cons]
      constructor
      · intro hnone b hb
        rcases hb with hb | hb
        · rw [hb]
          exact hfalse
        · exact (ih.mp hnone) b hb
      · intro hall
        exact ih.mpr (fun b hb => hall b (Or.inr hb))

theorem stateBefore_last (l : List (Nat × Nat)) (i : Nat) :
    (stateBefore l i).lastReceivedId = maxIdBefore l i := by
  unfold stateBefore maxIdBefore
  rw [run_pings_last]
  rfl

theorem pingAt_eq (l : List (Nat × Nat)) (i : Nat) (h : i < l.length) :
    pingAt l i = l.get ⟨i, h⟩ := by
  unfold pingAt
  rw [List.getD_eq_getElem?_getD, List.getElem?_eq_getElem h]
  rfl

theorem take_succ_concat (l : List (Nat × Nat)) (i : Nat) (h : i < l.length) :
    l.take (i + 1) = l.take i ++ [pingAt l i] := by
  rw [List.take_succ, pingAt_eq l i h, List.getElem?_eq_getElem h]
  rfl

theorem stateBefore_succ (l : List (Nat × Nat)) (i : Nat) (h : i < l.length) :
    stateBefore l (i + 1) =
      (ping_step (pingAt l i).1 (pingAt l i).2 (stateBefore l i)).1 := by
  unfold stateBefore
  rw [take_succ_concat l i h, run_pings_append]
  rfl

theorem drop_cons_pingAt (l : List (Nat × Nat)) (i : Nat) (h : i < l.length) :
    l.drop i = pingAt l i :: l.drop (i + 1) := by
  rw [pingAt_eq l i h]
  exact (List.getElem_cons_drop l i h).symm

theorem trace_take_append (l : List (Nat × Nat)) (i : Nat) (h : i < l.length) :
    (run_pings initDiscovery l).2 =
      (run_pings initDiscovery (l.take i)).2 ++
        ((ping_step (pingAt l i).1 (pingAt l i).2 (stateBefore l i)).2 ::
          (run_pings (ping_step (pingAt l i).1 (pingAt l i).2 (stateBefore l i)).1
            (l.drop (i + 1))).2) := by
  conv_lhs => rw [← List.take_append_drop i l]
  rw [run_pings_append, drop_cons_pingAt l i h]
  rfl

theorem trace_take_length (l : List (Nat × Nat)) (i : Nat) (h : i ≤ l.length) :
    (run_pings initDiscovery (l.take i)).2.length = i := by
  rw [run_pings_length, List.length_take]
  omega

theorem ackAt_eq (l : List (Nat × Nat)) (i : Nat) (h : i < l.length) :
    ackAt l i = (ping_step (pingAt l i).1 (pingAt l i).2 (stateBefore l i)).2 := by
  unfold ackAt
  rw [trace_take_append l i h]
  rw [List.getD_eq_getElem?_getD,
    List.getElem?_append_right (by rw [trace_take_length l i (le_of_lt h)])]
  rw [trace_take_length l i (le_of_lt h)]
  simp

theorem ackAt_take (l : List (Nat × Nat)) (i j : Nat) (hj : j < i)
    (hi : i < l.length) :
    (run_pings initDiscovery (l.take i)).2.getD j false = ackAt l j := by
  unfold ackAt
  rw [trace_take_append l i hi]
  rw [List.getD_eq_getElem?_getD, List.getD_eq_getElem?_getD,
    List.getElem?_append_left (by rw [trace_take_length l i (le_of_lt hi)]; exact hj)]

theorem forall_mem_false_iff_getD (t : List Bool) :
    (∀ b ∈ t, b = false) ↔ ∀ j, j < t.length → t.getD j false = false := by
  constructor
  · intro h j hj
    have hg : t.getD j false = t[j] := by
      rw [List.getD_eq_getElem?_getD, List.getElem?_eq_getElem hj]
      rfl
    rw [hg]
    exact h _ (t.getElem_mem hj)
  · intro h b hb
    obtain ⟨j, hj, rfl⟩ := List.mem_iff_getElem.mp hb
    have hg := h j hj
    rw [List.getD_eq_getElem?_getD, List.getElem?_eq_getElem hj] at hg
    simpa using hg

/- ## Claim C1: command wire-format round-trip -/

/-- C1. Round-trip of the command wire format: for every code in {0,2,3,4}
and every `u64` target time, encoding the command as the payload
`"<code> : <target_time_ms>"` (the payload `leader::handle_command` builds)
and then decoding with `extract_mode` and `extract_timestamp` yields exactly
the original code and the original target time. -/
theorem command_roundtrip (code t : Nat)
    (hcode : code = 0 ∨ code = 2 ∨ code = 3 ∨ code = 4) (ht : t < 2 ^ 64) :
    extract_mode (command_message (natDigits code) t) = some code ∧
    extract_timestamp (command_message (natDigits code) t) = some t := by
  have hclt : code < 2 ^ 64 := by
    rcases hcode with h | h | h | h <;> subst h <;> norm_num
  have hmsg : command_message (natDigits code) t =
      (natDigits code ++ [' ']) ++ ':' :: (' ' :: natDigits t) := by
    simp [command_message]
  have hnc : ':' ∉ natDigits code ++ [' '] := by
    intro hm
    rcases List.mem_append.mp hm with hm' | hm'
    · exact natDigits_no_colon code hm'
    · simp at hm'
  have hnt : ':' ∉ ' ' :: natDigits t := by
    intro hm
    rcases List.mem_cons.mp hm with hm' | hm'
    · exact absurd hm' (by decide)
    · exact natDigits_no_colon t hm'
  have hsplit : splitChar ':' (command_message (natDigits code) t) =
      [natDigits code ++ [' '], ' ' :: natDigits t] := by
    rw [hmsg, splitChar_append_cons _ hnc, splitChar_not_mem hnt]
  constructor
  · have h0 : extract_mode (command_message (natDigits code) t) =
        parseU64 (trimChars (natDigits code ++ [' '])) := by
      unfold extract_mode
      rw [hsplit]
      rfl
    rw [h0, trimChars_natDigits_space, parseU64_natDigits hclt]
  · have h1 : extract_timestamp (command_message (natDigits code) t) =
        parseU64 (trimChars (' ' :: natDigits t)) := by
      unfold extract_timestamp
      rw [hsplit]
      rfl
    rw [h1, trimChars_space_natDigits, parseU64_natDigits ht]

/-- Witness for C1 at code 2 and target time 98765. -/
theorem command_roundtrip_witness :
    extract_mode (command_message (natDigits 2) 98765) = some 2 ∧
    extract_timestamp (command_message (natDigits 2) 98765) = some 98765 :=
  command_roundtrip 2 98765 (Or.inr (Or.inl rfl)) (by norm_num)

/- ## Claim C2: offset computation -/

/-- C2. `get_offset` always returns `Some`: exactly zero whenever the target
time is at or before the current time (NTP result, or system clock on
fallback), and exactly `target - current` milliseconds whenever the target is
strictly in the future. -/
theorem get_offset_spec (ntp : Option Nat) (sys target : Nat) :
    (get_offset ntp sys target).isSome = true ∧
    (target ≤ currentTimeMs ntp sys → get_offset ntp sys target = some 0) ∧
    (currentTimeMs ntp sys < target →
      get_offset ntp sys target = some (target - currentTimeMs ntp sys)) := by
  refine ⟨?_, ?_, ?_⟩
  · by_cases h : currentTimeMs ntp sys < target <;> simp [get_offset, h]
  · intro h
    simp [get_offset, Nat.not_lt.mpr h]
  · intro h
    simp [get_offset, h]

/-- Witness for C2: a target already passed yields zero, a future target
yields the exact difference. -/
theorem get_offset_spec_witness :
    get_offset (some 100) 0 50 = some 0 ∧
    get_offset (some 100) 0 150 = some 50 :=
  ⟨(get_offset_spec (some 100) 0 50).2.1 (by norm_num [currentTimeMs]),
   (get_offset_spec (some 100) 0 150).2.2 (by norm_num [currentTimeMs])⟩

/- ## Claim C5: track-list round-trip -/

/-- C5 counterexample. The claim quantifies over every list of track names,
but a single name containing a comma (the spec's own example characters
`"Ä,日本"`) does not round-trip: encoding then decoding splits it into two
names. -/
theorem track_roundtrip_counterexample :
    parse_track_message (tracks_message [['Ä', ',', '日', '本']]) =
      some [['Ä'], ['日', '本']] ∧
    ([['Ä'], ['日', '本']] : List (List Char)) ≠ [['Ä', ',', '日', '本']] := by
  decide

/-- C5 amended. For every nonempty ordered list of track names in which no
name contains `':'` or `','` — names may freely contain non-ASCII
characters — the leader's encoding followed by the member's decoding yields
the original ordered list unchanged. -/
theorem track_roundtrip (names : List (List Char)) (hne : names ≠ [])
    (hclean : ∀ s ∈ names, ':' ∉ s ∧ ',' ∉ s) :
    parse_track_message (tracks_message names) = some names := by
  have hjoin : ':' ∉ joinChar ',' names :=
    not_mem_joinChar (by decide) (fun s hs => (hclean s hs).1)
  have htag : ':' ∉ tracksTag := by decide
  have hsplit : splitChar ':' (tracks_message names) =
      [tracksTag, joinChar ',' names] := by
    unfold tracks_message
    rw [splitChar_append_cons _ htag, splitChar_not_mem hjoin]
  unfold parse_track_message
  rw [hsplit]
  show some (splitChar ',' (joinChar ',' names)) = some names
  rw [splitChar_joinChar hne (fun s hs => (hclean s hs).2)]

/-- Witness for C5 (amended) on the spec's unicode example list
`["Ä", "日本", "Track 3"]`. -/
theorem track_roundtrip_witness :
    parse_track_message
        (tracks_message [['Ä'], ['日', '本'], ['T', 'r', 'a', 'c', 'k', ' ', '3']]) =
      some [['Ä'], ['日', '本'], ['T', 'r', 'a', 'c', 'k', ' ', '3']] :=
  track_roundtrip [['Ä'], ['日', '本'], ['T', 'r', 'a', 'c', 'k', ' ', '3']]
    (by decide) (by decide)

/- ## Claim C6: command decoding fields -/

/-- C6 counterexample. On the payload `"5:7:9"` the code returns timestamp
`Some 7`, while everything after the first `':'` is `"7:9"`, which fails to
parse — so "the entire right side parsed as an unsigned integer, with `None`
on parse failure" is not what the code computes. -/
theorem extract_timestamp_counterexample :
    extract_timestamp ['5', ':', '7', ':', '9'] = some 7 ∧
    parseU64 (trimChars ['7', ':', '9']) = none := by
  decide

/-- C6 amended. Command decoding splits the payload at every `':'`: the field
before the first `':'` (trimmed) parsed as an unsigned integer is the mode;
the timestamp is the field between the first and second `':'` (not everything
after the first `':'`), trimmed, parsed as an unsigned integer; a payload
with no `':'` has no timestamp field, and a field that fails to parse yields
`None` (a decode failure) rather than aborting. -/
theorem extract_fields (a b s : List Char) (ha : ':' ∉ a) (hs : ':' ∉ s) :
    extract_mode (a ++ ':' :: b) = parseU64 (trimChars a) ∧
    extract_timestamp (a ++ ':' :: b) =
      parseU64 (trimChars (b.takeWhile (fun x => x != ':'))) ∧
    extract_mode s = parseU64 (trimChars s) ∧
    extract_timestamp s = none := by
  have hsplit : splitChar ':' (a ++ ':' :: b) = a :: splitChar ':' b :=
    splitChar_append_cons b ha
  have hsplit2 : splitChar ':' s = [s] := splitChar_not_mem hs
  refine ⟨?_, ?_, ?_, ?_⟩
  · unfold extract_mode
    rw [hsplit]
    rfl
  · unfold extract_timestamp
    rw [hsplit]
    obtain ⟨x, rest, hx⟩ : ∃ x rest, splitChar ':' b = x :: rest := by
      cases h : splitChar ':' b with
      | nil => exact absurd h (splitChar_ne_nil ':' b)
      | cons x rest => exact ⟨x, rest, rfl⟩
    rw [hx]
    have hhead : x = b.takeWhile (fun y => y != ':') := by
      have hh := splitChar_headD ':' b
      rw [hx] at hh
      simpa using hh
    rw [hhead]
    rfl
  · unfold extract_mode
    rw [hsplit2]
    rfl
  · unfold extract_timestamp
    rw [hsplit2]
    rfl

/-- Witness for C6 (amended) on `"5:7:9"` and the colon-free payload
`"raw"`. -/
theorem extract_fields_witness :
    extract_mode (['5'] ++ ':' :: ['7', ':', '9']) = parseU64 (trimChars ['5']) ∧
    extract_timestamp (['5'] ++ ':' :: ['7', ':', '9']) =
      parseU64 (trimChars (['7', ':', '9'].takeWhile (fun x => x != ':'))) ∧
    extract_mode ['r', 'a', 'w'] = parseU64 (trimChars ['r', 'a', 'w']) ∧
    extract_timestamp ['r', 'a', 'w'] = none :=
  extract_fields ['5'] ['7', ':', '9'] ['r', 'a', 'w'] (by decide) (by decide)

/- ## Claim C3: member discovery state machine -/

/-- C3. For every sequence of parsed pings handled by
`member::handle_ping_message` from the initial state: (1) ping `i` is ACKed
exactly when no leader is yet bound and its sequence id strictly exceeds the
highest id previously seen; (2) a ping whose id is at most the highest
previously seen id is never ACKed; (3) once a leader is bound it never
changes and no further ping is ACKed; (4) being unbound is exactly having
ACKed no earlier ping, so the ACK of point (1) happens only on the first
qualifying ping. -/
theorem member_discovery (l : List (Nat × Nat)) (i : Nat) (h : i < l.length) :
    (ackAt l i = true ↔
      (stateBefore l i).leaderAddr = none ∧ maxIdBefore l i < pingIdAt l i) ∧
    (pingIdAt l i ≤ maxIdBefore l i → ackAt l i = false) ∧
    (∀ a, (stateBefore l i).leaderAddr = some a →
      (stateBefore l (i + 1)).leaderAddr = some a ∧ ackAt l i = false) ∧
    ((stateBefore l i).leaderAddr = none ↔ ∀ j, j < i → ackAt l j = false) := by
  have hmax := stateBefore_last l i
  have hack := ackAt_eq l i h
  have hiff : ackAt l i = true ↔
      (stateBefore l i).leaderAddr = none ∧ maxIdBefore l i < pingIdAt l i := by
    rw [hack, ping_step_ack_iff, hmax]
    unfold pingIdAt
    tauto
  refine ⟨hiff, ?_, ?_, ?_⟩
  · intro hle
    cases hb : ackAt l i with
    | false => rfl
    | true =>
      have := (hiff.mp hb).2
      omega
  · intro a ha
    have hstep := ping_step_leader_some ha (pingAt l i).1 (pingAt l i).2
    refine ⟨?_, ?_⟩
    · rw [stateBefore_succ l i h]
      exact hstep.1
    · rw [hack]
      exact hstep.2
  · have hnone := run_pings_leader_none_iff
      (show initDiscovery.leaderAddr = none from rfl) (l.take i)
    have hlen := trace_take_length l i (le_of_lt h)
    unfold stateBefore
    rw [hnone, forall_mem_false_iff_getD]
    constructor
    · intro hall j hj
      have := hall j (by rw [hlen]; exact hj)
      rw [ackAt_take l i j hj h] at this
      exact this
    · intro hall j hj
      rw [hlen] at hj
      rw [ackAt_take l i j hj h]
      exact hall j hj

/-- Witness for C3 on the ping sequence `[(1,7), (1,8), (5,9)]` at index 2:
the leader was bound at ping 0, so ping 2 is not ACKed even though its id 5
exceeds everything seen before. -/
theorem member_discovery_witness :
    (ackAt [(1, 7), (1, 8), (5, 9)] 2 = true ↔
      (stateBefore [(1, 7), (1, 8), (5, 9)] 2).leaderAddr = none ∧
        maxIdBefore [(1, 7), (1, 8), (5, 9)] 2 < pingIdAt [(1, 7), (1, 8), (5, 9)] 2) ∧
    (pingIdAt [(1, 7), (1, 8), (5, 9)] 2 ≤ maxIdBefore [(1, 7), (1, 8), (5, 9)] 2 →
      ackAt [(1, 7), (1, 8), (5, 9)] 2 = false) ∧
    (∀ a, (stateBefore [(1, 7), (1, 8), (5, 9)] 2).leaderAddr = some a →
      (stateBefore [(1, 7), (1, 8), (5, 9)] 3).leaderAddr = some a ∧
        ackAt [(1, 7), (1, 8), (5, 9)] 2 = false) ∧
    ((stateBefore [(1, 7), (1, 8), (5, 9)] 2).leaderAddr = none ↔
      ∀ j, j < 2 → ackAt [(1, 7), (1, 8), (5, 9)] j = false) :=
  member_discovery [(1, 7), (1, 8), (5, 9)] 2 (by norm_num)

/- ## Claim C4: track exhaustion hard-stop -/

/-- C4. When the current track index is the last one (`len(tracks) - 1`) and
a code-2 (next-track) transition is applied — by the leader's
`handle_command`, by the member's `handle_mode`, or by the end-of-track
watchdog once the position has reached the track's duration — the node
prints the farewell and exits instead of advancing playback past the last
track. -/
theorem track_exhaustion (st : MState) (numTracks t pos dur : Nat)
    (hidx : st.trackIndex = numTracks - 1) (hpos : dur ≤ pos) :
    (handle_command ['2'] t st numTracks).2 = StepOutcome.exit ∧
    handle_mode 2 t st numTracks = StepOutcome.exit ∧
    track_position_step pos dur st.trackIndex st.shouldReset numTracks =
      StepOutcome.exit := by
  have hge : numTracks ≤ st.trackIndex + 1 := by omega
  refine ⟨?_, ?_, ?_⟩
  · simp [handle_command, hge]
  · simp [handle_mode, hge]
  · simp [track_position_step, hpos, hge]

/-- Witness for C4 with three tracks, the index at 2, and a watchdog
position at the full duration. -/
theorem track_exhaustion_witness :
    (handle_command ['2'] 0 ⟨2, false, false⟩ 3).2 = StepOutcome.exit ∧
    handle_mode 2 0 ⟨2, false, false⟩ 3 = StepOutcome.exit ∧
    track_position_step 180 180 (MState.mk 2 false false).trackIndex
      (MState.mk 2 false false).shouldReset 3 = StepOutcome.exit :=
  track_exhaustion ⟨2, false, false⟩ 3 0 180 180 (by norm_num) (by norm_num)

/- ## Claim C8: malformed-message resilience -/

/-- C8. Feeding the member's receive/decode path the payloads `"garbage"`,
`":"`, `"tracks:"` and `"PING,notanumber"` drops each message without
touching the playback state and without exiting — the loop continues; the
last payload is also harmless to the discovery-phase ping handler, which
fails to parse `"notanumber"` and leaves the discovery state unchanged. -/
theorem malformed_resilience (st : MState) (numTracks : Nat)
    (s : DiscoveryState) (src : Nat) :
    handle_incoming ['g', 'a', 'r', 'b', 'a', 'g', 'e'] st numTracks =
      StepOutcome.cont st ∧
    handle_incoming [':'] st numTracks = StepOutcome.cont st ∧
    handle_incoming ['t', 'r', 'a', 'c', 'k', 's', ':'] st numTracks =
      StepOutcome.cont st ∧
    handle_incoming
        ['P', 'I', 'N', 'G', ',', 'n', 'o', 't', 'a', 'n', 'u', 'm', 'b', 'e', 'r']
        st numTracks = StepOutcome.cont st ∧
    handle_ping_message
        ['P', 'I', 'N', 'G', ',', 'n', 'o', 't', 'a', 'n', 'u', 'm', 'b', 'e', 'r']
        src s = some (s, false) :=
  ⟨rfl, rfl, rfl, rfl, rfl⟩

/- ## Claim C9: totality of the ping handler -/

/-- C9. The claim says `member::handle_ping_message` returns normally for
every payload beginning with `"PING"`, including the bare payload `"PING"`.
It does not: on `"PING"` the split on `','` yields a single part and the
code indexes `parts[1]`, which is out of bounds and panics (modelled here as
`none`). -/
theorem ping_without_comma_panics :
    handle_ping_message ['P', 'I', 'N', 'G'] 0 initDiscovery = none := by
  decide

/- ## Claim C10: unknown modes perform no action -/

/-- C10. When a member receives a well-formed command payload whose
timestamp parses and whose mode parses to something outside {0, 2, 3, 4},
`handle_mode` performs no action: the track index, the pending-reset flag
and the sink's paused/playing state are unchanged and the process does not
exit. -/
theorem unknown_mode_no_action (message : List Char) (mode ts : Nat)
    (st : MState) (numTracks : Nat)
    (hts : extract_timestamp message = some ts)
    (hm : extract_mode message = some mode)
    (h0 : mode ≠ 0) (h2 : mode ≠ 2) (h3 : mode ≠ 3) (h4 : mode ≠ 4) :
    handle_incoming message st numTracks = StepOutcome.cont st := by
  unfold handle_incoming
  rw [hts, hm]
  simp [handle_mode, h0, h2, h3, h4]

/-- Witness for C10 on the payload `"1 : 999"` (mode 1, timestamp 999). -/
theorem unknown_mode_no_action_witness :
    handle_incoming ['1', ' ', ':', ' ', '9', '9', '9'] ⟨0, false, true⟩ 3 =
      StepOutcome.cont ⟨0, false, true⟩ :=
  unknown_mode_no_action ['1', ' ', ':', ' ', '9', '9', '9'] 1 999
    ⟨0, false, true⟩ 3 (by decide) (by decide) (by decide) (by decide)
    (by decide) (by decide)

/- ## Claim C7: target-time computation -/

/-- C7. `broadcast_start_time` always returns `Some`, and (whenever the
`u64` addition does not overflow, which holds for every time the clock
capability can actually report) the issued target time is exactly 1000
milliseconds after the current time, whether that came from the network
clock or from the local wall clock on fallback. -/
theorem broadcast_start_time_spec (ntp : Option Nat) (sys : Nat)
    (h : currentTimeMs ntp sys + 1000 < 2 ^ 64) :
    (broadcast_start_time ntp sys).isSome = true ∧
    broadcast_start_time ntp sys = some (currentTimeMs ntp sys + 1000) := by
  unfold broadcast_start_time
  have h64 : currentTimeMs ntp sys + 1000 < 18446744073709551616 := by
    calc currentTimeMs ntp sys + 1000 < 2 ^ 64 := h
    _ = 18446744073709551616 := by norm_num
  simp [Nat.mod_eq_of_lt, h64]

/-- Witness for C7 on both clock branches: an NTP-provided time and a
system-clock fallback. -/
theorem broadcast_start_time_witness :
    ((broadcast_start_time (some 5000) 0).isSome = true ∧
      broadcast_start_time (some 5000) 0 = some (currentTimeMs (some 5000) 0 + 1000)) ∧
    ((broadcast_start_time none 7000).isSome = true ∧
      broadcast_start_time none 7000 = some (currentTimeMs none 7000 + 1000)) :=
  ⟨broadcast_start_time_spec (some 5000) 0 (by norm_num [currentTimeMs]),
   broadcast_start_time_spec none 7000 (by norm_num [currentTimeMs])⟩

end SyncStream
